import Mathlib

/-!
Shallow embedding of the license-blacklist scanner (src/index.ts).

The scanner ingests each repository's SBOM, resolves a license for every
package entry (falling back to an npm registry lookup), aggregates findings
whose license is "Unknown" or blacklisted into two insertion-ordered maps,
and renders a Markdown report and a Slack-markup report.

Modelling choices:
* The asynchronous npm fallback (`packageJson(...)`) is an oracle
  `registry : String → Option String → Except Unit (Option String)`:
  `Except.error` models a rejected promise, `Except.ok none` metadata with
  no license field, `Except.ok (some l)` metadata with license `l`.
* JavaScript `Map` (insertion-ordered, unique keys) is an association list;
  `Map.set` on a fresh key appends at the end, `push` appends to the stored
  array, matching JS insertion-order semantics.
* JS nullish coalescing `a ?? b` on optional strings is `Option.getD`;
  JS truthiness of a string (`pkg.name &&`) is `getD "" ≠ ""`.
* `.replace(/ /g, "-")` is a character map over the string's data.
-/

namespace Scanner

/-- One package entry of a repository's SBOM document
(`res.data.sbom.packages` element): optional `name`, `versionInfo` and
`licenseConcluded` fields. -/
structure SbomEntry where
  name : Option String
  versionInfo : Option String
  licenseConcluded : Option String
deriving DecidableEq

/-- `interface PackageData` from the source. -/
structure PackageData where
  name : String
  version : String
  license : String
deriving DecidableEq

/-- `interface MappedPackageData` from the source. -/
structure MappedPackageData where
  repo : String
  version : String
deriving DecidableEq

/-- `type PackageDataMap = Map<string, Map<string, MappedPackageData[]>>`,
modelled as an insertion-ordered association list. -/
abbrev PackageDataMap := List (String × List (String × List MappedPackageData))

/-- The npm registry oracle: given a package name and optional version it
either fails (rejected promise) or returns metadata with an optional
license field. -/
abbrev Registry := String → Option String → Except Unit (Option String)

/-- `resolveLicenseFromNPM`: query the registry; on success return its
license field or "Unknown" when absent (`?? "Unknown"`); on failure
(`.catch`) return "Unknown". -/
def resolveLicenseFromNPM (registry : Registry) (pkgName : String)
    (version : Option String) : String :=
  match registry pkgName version with
  | Except.ok pkgJson => pkgJson.getD "Unknown"
  | Except.error _ => "Unknown"

/-- The per-package resolution step
`licenseConcluded ?? (await resolveLicenseFromNPM(name, versionInfo))`:
nullish coalescing uses the declared license whenever it is present
(including the empty string) and queries the registry only when absent. -/
def resolveDeclaredOrNPM (registry : Registry) (declared : Option String)
    (pkgName : String) (version : Option String) : String :=
  match declared with
  | some s => s
  | none => resolveLicenseFromNPM registry pkgName version

/-- `.replace(/ /g, "-")`: replace every space character with a hyphen. -/
def normalizeLicense (s : String) : String :=
  String.mk (s.data.map fun c => if c = ' ' then '-' else c)

/-- The SBOM package filter `pkg.name && pkg.versionInfo !== "main"`:
keep entries whose name is truthy (present and non-empty) and whose
versionInfo is not the literal "main". -/
def keepEntry (e : SbomEntry) : Bool :=
  decide (e.name.getD "" ≠ "") && decide (e.versionInfo ≠ some "main")

/-- The per-entry construction of a `PackageData` finding: resolve the
license (declared first, registry fallback otherwise), hyphen-normalize it,
and default the version to "Missing version data" when absent. -/
def mkPackageData (registry : Registry) (e : SbomEntry) : PackageData :=
  { name := e.name.getD ""
    version := e.versionInfo.getD "Missing version data"
    license := normalizeLicense
      (resolveDeclaredOrNPM registry e.licenseConcluded (e.name.getD "")
        e.versionInfo) }

/-- One repository's result: its name and its list of package findings. -/
structure RepoResult where
  repo : String
  packages : List PackageData
deriving DecidableEq

/-- Ingestion of one repository's SBOM: filter the package list, then build
one finding per remaining entry. -/
def ingestRepo (registry : Registry) (repo : String)
    (sbomPackages : List SbomEntry) : RepoResult :=
  ⟨repo, (sbomPackages.filter keepEntry).map (mkPackageData registry)⟩

/-- Ingestion of every repository (the `pkgsByRepo` computation): one
`RepoResult` per (repository name, SBOM package list) pair. -/
def ingestAll (registry : Registry)
    (repos : List (String × List SbomEntry)) : List RepoResult :=
  repos.map fun rp => ingestRepo registry rp.1 rp.2

/-- Split a character list at every occurrence of `sep`; the empty list
splits to one empty segment, as JS `"".split(",")` gives `[""]`. -/
def splitOnChar (sep : Char) : List Char → List (List Char)
  | [] => [[]]
  | c :: tl =>
    if c = sep then [] :: splitOnChar sep tl
    else
      match splitOnChar sep tl with
      | [] => [[c]]
      | hd :: rest => (c :: hd) :: rest

/-- `LICENSE_BLACKLIST.split(",")`: split the configured blacklist string
at every comma, keeping empty segments. -/
def parseBlacklist (s : String) : List String :=
  (splitOnChar ',' s.data).map String.mk

/-- `map.get(k)` on a JS `Map` modelled as an association list: the value
at the first matching key. -/
def findVal (k : String) : List (String × α) → Option α
  | [] => none
  | kv :: tl => if kv.1 = k then some kv.2 else findVal k tl

/-- `map.has(k)`. -/
def hasKey (k : String) (m : List (String × α)) : Bool :=
  (findVal k m).isSome

/-- In-place update of the value stored at key `k` (the JS code mutates the
array returned by `map.get`); keys and their order are unchanged. -/
def modifyVal (k : String) (f : α → α) : List (String × α) → List (String × α)
  | [] => []
  | kv :: tl => if kv.1 = k then (kv.1, f kv.2) :: tl else kv :: modifyVal k f tl

/-- `insertPkgIntoMap(repo, pkg, map)`: create the missing outer entry for
`pkg.name` (appended in insertion order), create the missing inner entry for
`pkg.license`, then push `{repo, version}` onto the stored array. -/
def insertPkgIntoMap (repo : String) (pkg : PackageData)
    (m : PackageDataMap) : PackageDataMap :=
  let m1 := if hasKey pkg.name m then m else m ++ [(pkg.name, [])]
  modifyVal pkg.name
    (fun inner =>
      let inner1 :=
        if hasKey pkg.license inner then inner else inner ++ [(pkg.license, [])]
      modifyVal pkg.license (fun lst => lst ++ [⟨repo, pkg.version⟩]) inner1)
    m1

/-- The body of the aggregation loop for one finding: insert into the
no-license map when the license is "Unknown", and into the blacklist map
when the license is a blacklist member. The state is
(blacklistMap, noLicenseMap). -/
def aggregateStep (blacklist : List String) (repo : String)
    (st : PackageDataMap × PackageDataMap) (pkg : PackageData) :
    PackageDataMap × PackageDataMap :=
  let st1 :=
    if pkg.license = "Unknown" then (st.1, insertPkgIntoMap repo pkg st.2)
    else st
  if blacklist.contains pkg.license then
    (insertPkgIntoMap repo pkg st1.1, st1.2)
  else st1

/-- The aggregation loop (`pkgsByRepo.forEach(...)`): fold every finding of
every repository, in order, into the two maps, starting from empty maps. -/
def aggregate (blacklist : List String) (results : List RepoResult) :
    PackageDataMap × PackageDataMap :=
  results.foldl
    (fun st r => r.packages.foldl (aggregateStep blacklist r.repo) st)
    ([], [])

/-- The inner list stored under map key `n` then license `l`; `[]` when
either key is absent. -/
def getLicList (m : PackageDataMap) (n l : String) : List MappedPackageData :=
  (findVal l ((findVal n m).getD [])).getD []

/-- The map's top-level keys in insertion order. -/
def topKeys (m : PackageDataMap) : List String :=
  m.map Prod.fst

/-- The license keys stored under top-level key `n`, in insertion order. -/
def licKeys (m : PackageDataMap) (n : String) : List String :=
  ((findVal n m).getD []).map Prod.fst

/-- The multiset-level content the aggregation maps should carry: every
(repo, version) occurrence of a finding named `n` with license `l`, in
repository-then-package order. -/
def findingsOcc (results : List RepoResult) (n l : String) :
    List MappedPackageData :=
  results.flatMap fun r =>
    r.packages.filterMap fun pkg =>
      if pkg.name = n ∧ pkg.license = l then some ⟨r.repo, pkg.version⟩
      else none

/-- One element of `arraifyMap`'s inner array: a license and the
repositories exhibiting it. -/
structure LicenseGroup where
  license : String
  repos : List MappedPackageData
deriving DecidableEq

/-- One element of `arraifyMap`'s outer array: a package name and its
license groups. -/
structure PkgGroup where
  name : String
  licenses : List LicenseGroup
deriving DecidableEq

/-- `arraifyMap`: convert an aggregation map to nested arrays, preserving
insertion order. -/
def arraifyMap (m : PackageDataMap) : List PkgGroup :=
  m.map fun kv => ⟨kv.1, kv.2.map fun kv2 => ⟨kv2.1, kv2.2⟩⟩

/-- JS `Array.prototype.map((x, idx) => ...)`: map with the element index,
starting at `i`. -/
def mapWithIdx (f : Nat → α → β) : Nat → List α → List β
  | _, [] => []
  | i, a :: tl => f i a :: mapWithIdx f (i + 1) tl

/-- The Markdown repository link
`[```repo```](orgUrl/repo) @ version`. -/
def mdRepoLink (orgUrl : String) (mp : MappedPackageData) : String :=
  "[```" ++ mp.repo ++ "```](" ++ orgUrl ++ "/" ++ mp.repo ++ ") @ " ++
    mp.version

/-- The Markdown rows for one package group: the first license row carries
the package name, later rows leave the name cell empty (`idx < 1` test in
the source); interpolating the JS string array `repos` joins it with ",". -/
def mdPkgLines (orgUrl : String) (g : PkgGroup) : List String :=
  mapWithIdx
    (fun idx x =>
      if idx < 1 then
        "| ```" ++ g.name ++ "``` | " ++ x.1 ++ " | " ++
          String.intercalate "," x.2 ++ " |"
      else
        "| | " ++ x.1 ++ " | " ++ String.intercalate "," x.2 ++ " |")
    0
    (g.licenses.map fun lg => (lg.license, lg.repos.map (mdRepoLink orgUrl)))

/-- `generateMDFromPkgs(category)`: header, table head, one row group per
package joined by newlines, and the removal trailer. The category string
selects which arraified map is rendered. -/
def generateMDFromPkgs (orgUrl : String)
    (blacklistPkgs noLicensePkgs : List PkgGroup)
    (pkgsCategory : String) : String :=
  "### Dependencies with " ++ pkgsCategory ++ " licenses\n" ++
  "| Package Name | License | Repositories Affected |\n" ++
  "| --- | --- | --- |\n" ++
  String.intercalate "\n"
    ((if pkgsCategory = "blacklisted" then blacklistPkgs else noLicensePkgs).map
      fun g => String.intercalate "\n" (mdPkgLines orgUrl g)) ++
  "\n\n" ++
  "Please remove these dependencies."

/-- The Slack repository link `` `repo` (<orgUrl/repo|link>) @ version``. -/
def slackRepoLink (orgUrl : String) (mp : MappedPackageData) : String :=
  "`" ++ mp.repo ++ "` (<" ++ orgUrl ++ "/" ++ mp.repo ++ "|link>) @ " ++
    mp.version

/-- The Slack rows for one package group: the first license row carries the
bolded package name and license, later rows are bare bullet lines. -/
def slackPkgLines (orgUrl : String) (g : PkgGroup) : List String :=
  mapWithIdx
    (fun idx x =>
      if idx < 1 then
        "*" ++ g.name ++ " - " ++ x.1 ++ "*\n - " ++
          String.intercalate "," x.2
      else
        "- " ++ String.intercalate "," x.2)
    0
    (g.licenses.map fun lg =>
      (lg.license, lg.repos.map (slackRepoLink orgUrl)))

/-- `generateSlackMdFromPkgs(category)`: header, one row group per package
joined by blank lines, and the removal trailer. -/
def generateSlackMdFromPkgs (orgUrl : String)
    (blacklistPkgs noLicensePkgs : List PkgGroup)
    (pkgsCategory : String) : String :=
  "Dependencies with " ++ pkgsCategory ++ " licenses:\n\n" ++
  String.intercalate "\n\n"
    ((if pkgsCategory = "blacklisted" then blacklistPkgs else noLicensePkgs).map
      fun g => String.intercalate "\n" (slackPkgLines orgUrl g)) ++
  "\n\n" ++
  "Please remove these dependencies."

/-- The introductory banner line of the Markdown report. -/
def mdBanner : String :=
  "```license-scanner``` has detected dependency licensing issues:"

/-- The introductory banner line of the Slack report. -/
def slackBanner : String :=
  "*License Blacklist Scanner Results*"

/-- The `mdComponents` assembly: the banner, then the blacklisted section
when `blacklistPkgs` is non-empty, then the missing section when
`noLicensePkgs` is non-empty. The arguments are the two aggregation maps
(blacklist map first). -/
def mdComponents (orgUrl : String) (blacklistMap noLicenseMap : PackageDataMap) :
    List String :=
  let blacklistPkgs := arraifyMap blacklistMap
  let noLicensePkgs := arraifyMap noLicenseMap
  let comps := [mdBanner]
  let comps :=
    if blacklistPkgs.length > 0 then
      comps ++ [generateMDFromPkgs orgUrl blacklistPkgs noLicensePkgs "blacklisted"]
    else comps
  let comps :=
    if noLicensePkgs.length > 0 then
      comps ++ [generateMDFromPkgs orgUrl blacklistPkgs noLicensePkgs "missing"]
    else comps
  comps

/-- `mdProblems = mdComponents.join("\n\n")`. -/
def mdProblems (orgUrl : String) (blacklistMap noLicenseMap : PackageDataMap) :
    String :=
  String.intercalate "\n\n" (mdComponents orgUrl blacklistMap noLicenseMap)

/-- The `slackMdComponents` assembly, mirroring `mdComponents`. -/
def slackMdComponents (orgUrl : String)
    (blacklistMap noLicenseMap : PackageDataMap) : List String :=
  let blacklistPkgs := arraifyMap blacklistMap
  let noLicensePkgs := arraifyMap noLicenseMap
  let comps := [slackBanner]
  let comps :=
    if blacklistPkgs.length > 0 then
      comps ++
        [generateSlackMdFromPkgs orgUrl blacklistPkgs noLicensePkgs "blacklisted"]
    else comps
  let comps :=
    if noLicensePkgs.length > 0 then
      comps ++
        [generateSlackMdFromPkgs orgUrl blacklistPkgs noLicensePkgs "missing"]
    else comps
  comps

/-- `slackMdProblems = slackMdComponents.join("\n\n")`. -/
def slackMdProblems (orgUrl : String)
    (blacklistMap noLicenseMap : PackageDataMap) : String :=
  String.intercalate "\n\n" (slackMdComponents orgUrl blacklistMap noLicenseMap)

/-! ### Association-list lemmas -/

/-- The common shape of both levels of `insertPkgIntoMap`: default the key
to `d` when absent, then update its value with `f`. -/
def mapStep (k : String) (d : α) (f : α → α) (m : List (String × α)) :
    List (String × α) :=
  modifyVal k f (if hasKey k m then m else m ++ [(k, d)])

theorem insertPkgIntoMap_eq_mapStep (repo : String) (pkg : PackageData)
    (m : PackageDataMap) :
    insertPkgIntoMap repo pkg m =
      mapStep pkg.name []
        (fun inner =>
          mapStep pkg.license [] (fun lst => lst ++ [⟨repo, pkg.version⟩]) inner)
        m := rfl

theorem findVal_modify_eq (k : String) (f : α → α)
    (m : List (String × α)) :
    findVal k (modifyVal k f m) = (findVal k m).map f := by
  induction m with
  | nil => rfl
  | cons kv tl ih =>
    by_cases h : kv.1 = k
    · simp [modifyVal, findVal, h]
    · simp [modifyVal, findVal, h, ih]

theorem findVal_modify_ne (n k : String) (f : α → α)
    (m : List (String × α)) (h : n ≠ k) :
    findVal n (modifyVal k f m) = findVal n m := by
  induction m with
  | nil => rfl
  | cons kv tl ih =>
    have hkn : k ≠ n := fun hh => h hh.symm
    by_cases hk : kv.1 = k
    · simp [modifyVal, findVal, hk, hkn]
    · simp [modifyVal, findVal, hk, ih]

theorem keys_modify (k : String) (f : α → α) (m : List (String × α)) :
    (modifyVal k f m).map Prod.fst = m.map Prod.fst := by
  induction m with
  | nil => rfl
  | cons kv tl ih =>
    by_cases h : kv.1 = k
    · simp [modifyVal, h]
    · simp [modifyVal, h, ih]

theorem findVal_append_single (n k : String) (v : α)
    (m : List (String × α)) :
    findVal n (m ++ [(k, v)]) =
      if (findVal n m).isSome then findVal n m
      else if k = n then some v else none := by
  induction m with
  | nil => simp [findVal]
  | cons kv tl ih =>
    by_cases h : kv.1 = n
    · simp [findVal, h]
    · simp [findVal, h, ih]

theorem hasKey_iff (k : String) (m : List (String × α)) :
    hasKey k m = true ↔ k ∈ m.map Prod.fst := by
  induction m with
  | nil => simp [hasKey, findVal]
  | cons kv tl ih =>
    by_cases h : kv.1 = k
    · simp [hasKey, findVal, h]
    · have e1 : hasKey k (kv :: tl) = hasKey k tl := by
        simp [hasKey, findVal, h]
      rw [e1, ih]
      simp [h, Ne.symm h]

theorem findVal_mapStep_eq (k : String) (d : α) (f : α → α)
    (m : List (String × α)) :
    findVal k (mapStep k d f m) = some (f ((findVal k m).getD d)) := by
  unfold mapStep
  by_cases h : hasKey k m = true
  · have h2 : (findVal k m).isSome = true := h
    rcases Option.isSome_iff_exists.mp h2 with ⟨v, hv⟩
    rw [if_pos h, findVal_modify_eq, hv]
    rfl
  · have h2 : (findVal k m).isSome ≠ true := h
    have hnone : findVal k m = none :=
      Option.not_isSome_iff_eq_none.mp (by simpa using h2)
    rw [if_neg h, findVal_modify_eq, findVal_append_single, hnone]
    simp

theorem findVal_mapStep_ne (n k : String) (d : α) (f : α → α)
    (m : List (String × α)) (h : n ≠ k) :
    findVal n (mapStep k d f m) = findVal n m := by
  unfold mapStep
  rw [findVal_modify_ne n k _ _ h]
  by_cases hk : hasKey k m = true
  · rw [if_pos hk]
  · rw [if_neg hk, findVal_append_single]
    have hkn : k ≠ n := fun hh => h hh.symm
    by_cases hs : (findVal n m).isSome = true
    · simp [hs]
    · have hnone : findVal n m = none :=
        Option.not_isSome_iff_eq_none.mp (by simpa using hs)
      simp [hnone, hkn]

theorem keys_mapStep (k : String) (d : α) (f : α → α)
    (m : List (String × α)) :
    (mapStep k d f m).map Prod.fst =
      if hasKey k m then m.map Prod.fst else m.map Prod.fst ++ [k] := by
  unfold mapStep
  by_cases h : hasKey k m
  · simp [h, keys_modify]
  · simp [h, keys_modify]

/-! ### What one `insertPkgIntoMap` call does to the observations -/

theorem getLicList_insert (repo n l : String) (pkg : PackageData)
    (m : PackageDataMap) :
    getLicList (insertPkgIntoMap repo pkg m) n l =
      getLicList m n l ++
        (if pkg.name = n ∧ pkg.license = l then [⟨repo, pkg.version⟩]
         else []) := by
  rw [insertPkgIntoMap_eq_mapStep]
  unfold getLicList
  by_cases hn : pkg.name = n
  · subst hn
    rw [findVal_mapStep_eq]
    by_cases hl : pkg.license = l
    · subst hl
      simp only [Option.getD_some]
      rw [findVal_mapStep_eq]
      simp
    · simp only [Option.getD_some]
      rw [findVal_mapStep_ne l pkg.license _ _ _ (fun hh => hl hh.symm)]
      simp [hl]
  · rw [findVal_mapStep_ne n pkg.name _ _ _ (fun hh => hn hh.symm)]
    simp [hn]

theorem mem_topKeys_insert (repo n : String) (pkg : PackageData)
    (m : PackageDataMap) :
    n ∈ topKeys (insertPkgIntoMap repo pkg m) ↔
      n ∈ topKeys m ∨ n = pkg.name := by
  rw [insertPkgIntoMap_eq_mapStep]
  unfold topKeys
  rw [keys_mapStep]
  by_cases h : hasKey pkg.name m = true
  · rw [if_pos h]
    constructor
    · exact Or.inl
    · rintro (hh | hh)
      · exact hh
      · subst hh
        exact (hasKey_iff _ _).mp h
  · rw [if_neg h]
    simp [List.mem_append]

theorem mem_licKeys_insert (repo n l : String) (pkg : PackageData)
    (m : PackageDataMap) :
    l ∈ licKeys (insertPkgIntoMap repo pkg m) n ↔
      l ∈ licKeys m n ∨ (pkg.name = n ∧ pkg.license = l) := by
  rw [insertPkgIntoMap_eq_mapStep]
  unfold licKeys
  by_cases hn : pkg.name = n
  · subst hn
    rw [findVal_mapStep_eq]
    simp only [Option.getD_some]
    rw [keys_mapStep]
    by_cases hk : hasKey pkg.license ((findVal pkg.name m).getD []) = true
    · rw [if_pos hk]
      constructor
      · exact Or.inl
      · rintro (hh | ⟨-, hh⟩)
        · exact hh
        · subst hh
          exact (hasKey_iff _ _).mp hk
    · rw [if_neg hk]
      simp [List.mem_append, eq_comm]
  · rw [findVal_mapStep_ne n pkg.name _ _ _ (fun hh => hn hh.symm)]
    simp [hn]

/-! ### The aggregation loop, flattened into a single action list -/

/-- Which map each finding touches: the second component of the state after
one loop body, isolated. -/
theorem aggregateStep_snd (bl : List String) (repo : String)
    (st : PackageDataMap × PackageDataMap) (pkg : PackageData) :
    (aggregateStep bl repo st pkg).2 =
      if pkg.license = "Unknown" then insertPkgIntoMap repo pkg st.2
      else st.2 := by
  unfold aggregateStep
  by_cases h1 : pkg.license = "Unknown" <;> simp [h1] <;> split <;> rfl

/-- The first component of the state after one loop body, isolated. -/
theorem aggregateStep_fst (bl : List String) (repo : String)
    (st : PackageDataMap × PackageDataMap) (pkg : PackageData) :
    (aggregateStep bl repo st pkg).1 =
      if bl.contains pkg.license then insertPkgIntoMap repo pkg st.1
      else st.1 := by
  unfold aggregateStep
  by_cases h1 : pkg.license = "Unknown" <;> simp [h1] <;> split <;> rfl

/-- The findings processed by the aggregation loop, flattened in iteration
order to (repository name, finding) pairs. -/
def actions (results : List RepoResult) : List (String × PackageData) :=
  results.flatMap fun r => r.packages.map fun p => (r.repo, p)

/-- The aggregation loop as a fold over the flattened action list. -/
def aggActions (blacklist : List String)
    (acts : List (String × PackageData))
    (st : PackageDataMap × PackageDataMap) :
    PackageDataMap × PackageDataMap :=
  acts.foldl (fun st a => aggregateStep blacklist a.1 st a.2) st

theorem foldl_packages_eq_aggActions (bl : List String) (repo : String)
    (pkgs : List PackageData) (st : PackageDataMap × PackageDataMap) :
    pkgs.foldl (aggregateStep bl repo) st =
      aggActions bl (pkgs.map fun p => (repo, p)) st := by
  induction pkgs generalizing st with
  | nil => rfl
  | cons p tl ih => simp [aggActions, List.foldl_cons, ih, aggActions]

theorem aggregate_eq_aggActions (bl : List String) (rs : List RepoResult) :
    aggregate bl rs = aggActions bl (actions rs) ([], []) := by
  unfold aggregate
  generalize ([], []) = st
  induction rs generalizing st with
  | nil => rfl
  | cons r tl ih =>
    rw [List.foldl_cons, ih, foldl_packages_eq_aggActions]
    unfold actions aggActions
    rw [List.flatMap_cons, List.foldl_append]

/-- Either aggregation map, abstractly: insert each finding whose license
satisfies `P`, skip the rest. -/
def mapFoldBy (P : String → Bool) (acts : List (String × PackageData))
    (m : PackageDataMap) : PackageDataMap :=
  acts.foldl
    (fun m a => if P a.2.license then insertPkgIntoMap a.1 a.2 m else m) m

theorem aggActions_fst (bl : List String)
    (acts : List (String × PackageData))
    (st : PackageDataMap × PackageDataMap) :
    (aggActions bl acts st).1 =
      mapFoldBy (fun s => bl.contains s) acts st.1 := by
  induction acts generalizing st with
  | nil => rfl
  | cons a tl ih =>
    rw [show aggActions bl (a :: tl) st =
          aggActions bl tl (aggregateStep bl a.1 st a.2) from rfl,
        ih, aggregateStep_fst]
    rfl

theorem aggActions_snd (bl : List String)
    (acts : List (String × PackageData))
    (st : PackageDataMap × PackageDataMap) :
    (aggActions bl acts st).2 =
      mapFoldBy (fun s => decide (s = "Unknown")) acts st.2 := by
  induction acts generalizing st with
  | nil => rfl
  | cons a tl ih =>
    rw [show aggActions bl (a :: tl) st =
          aggActions bl tl (aggregateStep bl a.1 st a.2) from rfl,
        ih, aggregateStep_snd]
    by_cases h : a.2.license = "Unknown"
    · simp [mapFoldBy, h]
    · simp [mapFoldBy, h]

/-- The (repo, version) occurrences an action list contributes to the
(name `n`, license `l`) cell, in iteration order. -/
def actsOcc (acts : List (String × PackageData)) (n l : String) :
    List MappedPackageData :=
  acts.filterMap fun a =>
    if a.2.name = n ∧ a.2.license = l then some ⟨a.1, a.2.version⟩ else none

theorem actsOcc_cons (a : String × PackageData)
    (tl : List (String × PackageData)) (n l : String) :
    actsOcc (a :: tl) n l =
      (if a.2.name = n ∧ a.2.license = l then [⟨a.1, a.2.version⟩] else [])
        ++ actsOcc tl n l := by
  by_cases hc : a.2.name = n ∧ a.2.license = l <;>
    simp [actsOcc, List.filterMap_cons, hc]

theorem getLicList_mapFoldBy (P : String → Bool)
    (acts : List (String × PackageData)) (m : PackageDataMap)
    (n l : String) :
    getLicList (mapFoldBy P acts m) n l =
      getLicList m n l ++ (if P l = true then actsOcc acts n l else []) := by
  induction acts generalizing m with
  | nil => simp [mapFoldBy, actsOcc]
  | cons a tl ih =>
    rw [show mapFoldBy P (a :: tl) m =
          mapFoldBy P tl
            (if P a.2.license then insertPkgIntoMap a.1 a.2 m else m)
          from rfl,
        ih, actsOcc_cons]
    by_cases hc : a.2.name = n ∧ a.2.license = l
    · rcases hc with ⟨hn, hlz⟩
      by_cases hp : P l = true
      · rw [if_pos (show P a.2.license = true from hlz ▸ hp),
            getLicList_insert]
        simp [hn, hlz, hp, List.append_assoc]
      · rw [if_neg (show ¬P a.2.license = true from fun h => hp (hlz ▸ h))]
        simp [hp]
    · have e1 :
          getLicList
            (if P a.2.license then insertPkgIntoMap a.1 a.2 m else m) n l =
          getLicList m n l := by
        by_cases hp : P a.2.license = true
        · rw [if_pos hp, getLicList_insert, if_neg hc, List.append_nil]
        · rw [if_neg hp]
      rw [e1]
      simp [hc]

theorem mem_topKeys_mapFoldBy (P : String → Bool)
    (acts : List (String × PackageData)) (m : PackageDataMap) (n : String) :
    n ∈ topKeys (mapFoldBy P acts m) ↔
      n ∈ topKeys m ∨
        ∃ a ∈ acts, a.2.name = n ∧ P a.2.license = true := by
  induction acts generalizing m with
  | nil => simp [mapFoldBy]
  | cons a tl ih =>
    rw [show mapFoldBy P (a :: tl) m =
          mapFoldBy P tl
            (if P a.2.license then insertPkgIntoMap a.1 a.2 m else m)
          from rfl,
        ih]
    by_cases hp : P a.2.license = true
    · rw [if_pos hp]
      constructor
      · rintro (hh | hh)
        · rcases (mem_topKeys_insert a.1 n a.2 m).mp hh with h1 | h1
          · exact Or.inl h1
          · exact Or.inr ⟨a, List.mem_cons_self a tl, h1.symm, hp⟩
        · rcases hh with ⟨x, hx, hx1, hx2⟩
          exact Or.inr ⟨x, List.mem_cons_of_mem a hx, hx1, hx2⟩
      · rintro (hh | ⟨x, hx, hx1, hx2⟩)
        · exact Or.inl ((mem_topKeys_insert a.1 n a.2 m).mpr (Or.inl hh))
        · rcases List.mem_cons.mp hx with rfl | hx
          · exact Or.inl
              ((mem_topKeys_insert _ n _ m).mpr (Or.inr hx1.symm))
          · exact Or.inr ⟨x, hx, hx1, hx2⟩
    · rw [if_neg hp]
      constructor
      · rintro (hh | ⟨x, hx, hx1, hx2⟩)
        · exact Or.inl hh
        · exact Or.inr ⟨x, List.mem_cons_of_mem a hx, hx1, hx2⟩
      · rintro (hh | ⟨x, hx, hx1, hx2⟩)
        · exact Or.inl hh
        · rcases List.mem_cons.mp hx with rfl | hx
          · exact absurd hx2 hp
          · exact Or.inr ⟨x, hx, hx1, hx2⟩

theorem mem_licKeys_mapFoldBy (P : String → Bool)
    (acts : List (String × PackageData)) (m : PackageDataMap)
    (n l : String) :
    l ∈ licKeys (mapFoldBy P acts m) n ↔
      l ∈ licKeys m n ∨
        ∃ a ∈ acts, a.2.name = n ∧ a.2.license = l ∧ P l = true := by
  induction acts generalizing m with
  | nil => simp [mapFoldBy]
  | cons a tl ih =>
    rw [show mapFoldBy P (a :: tl) m =
          mapFoldBy P tl
            (if P a.2.license then insertPkgIntoMap a.1 a.2 m else m)
          from rfl,
        ih]
    by_cases hp : P a.2.license = true
    · rw [if_pos hp]
      constructor
      · rintro (hh | ⟨x, hx, hx1, hx2, hx3⟩)
        · rcases (mem_licKeys_insert a.1 n l a.2 m).mp hh with h1 | ⟨h1, h2⟩
          · exact Or.inl h1
          · exact Or.inr ⟨a, List.mem_cons_self a tl, h1, h2, h2 ▸ hp⟩
        · exact Or.inr ⟨x, List.mem_cons_of_mem a hx, hx1, hx2, hx3⟩
      · rintro (hh | ⟨x, hx, hx1, hx2, hx3⟩)
        · exact Or.inl ((mem_licKeys_insert a.1 n l a.2 m).mpr (Or.inl hh))
        · rcases List.mem_cons.mp hx with rfl | hx
          · exact Or.inl
              ((mem_licKeys_insert _ n l _ m).mpr (Or.inr ⟨hx1, hx2⟩))
          · exact Or.inr ⟨x, hx, hx1, hx2, hx3⟩
    · rw [if_neg hp]
      constructor
      · rintro (hh | ⟨x, hx, hx1, hx2, hx3⟩)
        · exact Or.inl hh
        · exact Or.inr ⟨x, List.mem_cons_of_mem a hx, hx1, hx2, hx3⟩
      · rintro (hh | ⟨x, hx, hx1, hx2, hx3⟩)
        · exact Or.inl hh
        · rcases List.mem_cons.mp hx with rfl | hx
          · exact absurd (hx2 ▸ hx3) hp
          · exact Or.inr ⟨x, hx, hx1, hx2, hx3⟩

/-! ### The aggregate maps, characterized over the repository results -/

theorem actsOcc_actions (rs : List RepoResult) (n l : String) :
    actsOcc (actions rs) n l = findingsOcc rs n l := by
  induction rs with
  | nil => rfl
  | cons r tl ih =>
    unfold actions actsOcc findingsOcc at ih ⊢
    rw [List.flatMap_cons, List.flatMap_cons, List.filterMap_append,
        List.filterMap_map, ih]
    rfl

theorem exists_action_iff (rs : List RepoResult)
    (Q : String × PackageData → Prop) :
    (∃ a ∈ actions rs, Q a) ↔
      ∃ r ∈ rs, ∃ p ∈ r.packages, Q (r.repo, p) := by
  constructor
  · rintro ⟨a, ha, hq⟩
    rcases List.mem_flatMap.mp ha with ⟨r, hr, hmem⟩
    rcases List.mem_map.mp hmem with ⟨p, hp, rfl⟩
    exact ⟨r, hr, p, hp, hq⟩
  · rintro ⟨r, hr, p, hp, hq⟩
    exact ⟨(r.repo, p),
      List.mem_flatMap.mpr ⟨r, hr, List.mem_map.mpr ⟨p, hp, rfl⟩⟩, hq⟩

theorem getLicList_aggregate_snd (bl : List String) (rs : List RepoResult)
    (n l : String) :
    getLicList (aggregate bl rs).2 n l =
      if l = "Unknown" then findingsOcc rs n l else [] := by
  rw [aggregate_eq_aggActions, aggActions_snd, getLicList_mapFoldBy,
      actsOcc_actions]
  simp [getLicList, findVal]

theorem getLicList_aggregate_fst (bl : List String) (rs : List RepoResult)
    (n l : String) :
    getLicList (aggregate bl rs).1 n l =
      if bl.contains l then findingsOcc rs n l else [] := by
  rw [aggregate_eq_aggActions, aggActions_fst, getLicList_mapFoldBy,
      actsOcc_actions]
  simp [getLicList, findVal]

theorem mem_topKeys_aggregate_snd (bl : List String) (rs : List RepoResult)
    (n : String) :
    n ∈ topKeys (aggregate bl rs).2 ↔
      ∃ r ∈ rs, ∃ p ∈ r.packages, p.name = n ∧ p.license = "Unknown" := by
  rw [aggregate_eq_aggActions, aggActions_snd, mem_topKeys_mapFoldBy]
  simp only [topKeys, List.map_nil, List.not_mem_nil, false_or,
    decide_eq_true_eq]
  exact exists_action_iff rs fun a => a.2.name = n ∧ a.2.license = "Unknown"

theorem mem_topKeys_aggregate_fst (bl : List String) (rs : List RepoResult)
    (n : String) :
    n ∈ topKeys (aggregate bl rs).1 ↔
      ∃ r ∈ rs, ∃ p ∈ r.packages,
        p.name = n ∧ bl.contains p.license = true := by
  rw [aggregate_eq_aggActions, aggActions_fst, mem_topKeys_mapFoldBy]
  simp only [topKeys, List.map_nil, List.not_mem_nil, false_or]
  exact exists_action_iff rs
    fun a => a.2.name = n ∧ bl.contains a.2.license = true

theorem mem_licKeys_aggregate_snd (bl : List String) (rs : List RepoResult)
    (n l : String) :
    l ∈ licKeys (aggregate bl rs).2 n ↔
      ∃ r ∈ rs, ∃ p ∈ r.packages,
        p.name = n ∧ p.license = l ∧ l = "Unknown" := by
  rw [aggregate_eq_aggActions, aggActions_snd, mem_licKeys_mapFoldBy]
  simp only [licKeys, findVal, Option.getD_none, List.map_nil,
    List.not_mem_nil, false_or, decide_eq_true_eq]
  exact exists_action_iff rs
    fun a => a.2.name = n ∧ a.2.license = l ∧ l = "Unknown"

theorem mem_licKeys_aggregate_fst (bl : List String) (rs : List RepoResult)
    (n l : String) :
    l ∈ licKeys (aggregate bl rs).1 n ↔
      ∃ r ∈ rs, ∃ p ∈ r.packages,
        p.name = n ∧ p.license = l ∧ bl.contains l = true := by
  rw [aggregate_eq_aggActions, aggActions_fst, mem_licKeys_mapFoldBy]
  simp only [licKeys, findVal, Option.getD_none, List.map_nil,
    List.not_mem_nil, false_or]
  exact exists_action_iff rs
    fun a => a.2.name = n ∧ a.2.license = l ∧ bl.contains l = true

/-! ### The uniqueness invariant of the aggregation maps -/

/-- Well-formedness of an aggregation map: every package name appears at
most once at the top level, and under each entry every license appears at
most once. -/
def WF (m : PackageDataMap) : Prop :=
  (topKeys m).Nodup ∧ ∀ kv ∈ m, (kv.2.map Prod.fst).Nodup

theorem mem_modifyVal (k : String) (f : α → α) (m : List (String × α))
    (kv : String × α) (h : kv ∈ modifyVal k f m) :
    kv ∈ m ∨ ∃ kv0 ∈ m, kv0.1 = k ∧ kv = (kv0.1, f kv0.2) := by
  induction m with
  | nil => simp [modifyVal] at h
  | cons hd tl ih =>
    by_cases hk : hd.1 = k
    · rw [modifyVal, if_pos hk] at h
      rcases List.mem_cons.mp h with rfl | h
      · exact Or.inr ⟨hd, List.mem_cons_self hd tl, hk, rfl⟩
      · exact Or.inl (List.mem_cons_of_mem hd h)
    · rw [modifyVal, if_neg hk] at h
      rcases List.mem_cons.mp h with rfl | h
      · exact Or.inl (List.mem_cons_self kv tl)
      · rcases ih h with h1 | ⟨kv0, hv0, hv1, hv2⟩
        · exact Or.inl (List.mem_cons_of_mem hd h1)
        · exact Or.inr ⟨kv0, List.mem_cons_of_mem hd hv0, hv1, hv2⟩

theorem nodup_keys_mapStep (k : String) (d : α) (f : α → α)
    (m : List (String × α)) (h : (m.map Prod.fst).Nodup) :
    ((mapStep k d f m).map Prod.fst).Nodup := by
  rw [keys_mapStep]
  by_cases hk : hasKey k m = true
  · rw [if_pos hk]
    exact h
  · rw [if_neg hk]
    have hnm : k ∉ m.map Prod.fst := fun hmem => hk ((hasKey_iff k m).mpr hmem)
    refine List.Nodup.append h (List.nodup_singleton k) fun x hx hx2 => ?_
    exact hnm ((List.mem_singleton.mp hx2) ▸ hx)

theorem WF_insert (repo : String) (pkg : PackageData) (m : PackageDataMap)
    (h : WF m) : WF (insertPkgIntoMap repo pkg m) := by
  rcases h with ⟨hkeys, hinner⟩
  rw [insertPkgIntoMap_eq_mapStep]
  constructor
  · exact nodup_keys_mapStep _ _ _ _ hkeys
  · intro kv hkv
    unfold mapStep at hkv
    have hm1 : ∀ kv2 ∈ (if hasKey pkg.name m then m else m ++ [(pkg.name, [])]),
        (kv2.2.map Prod.fst).Nodup := by
      intro kv2 hkv2
      by_cases hk : hasKey pkg.name m = true
      · rw [if_pos hk] at hkv2
        exact hinner kv2 hkv2
      · rw [if_neg hk] at hkv2
        rcases List.mem_append.mp hkv2 with h2 | h2
        · exact hinner kv2 h2
        · rcases List.mem_singleton.mp h2 with rfl
          simp
    rcases mem_modifyVal _ _ _ _ hkv with h2 | ⟨kv0, hv0, hv1, rfl⟩
    · exact hm1 kv h2
    · exact nodup_keys_mapStep _ _ _ _ (hm1 kv0 hv0)

theorem WF_mapFoldBy (P : String → Bool)
    (acts : List (String × PackageData)) (m : PackageDataMap)
    (h : WF m) : WF (mapFoldBy P acts m) := by
  induction acts generalizing m with
  | nil => exact h
  | cons a tl ih =>
    rw [show mapFoldBy P (a :: tl) m =
          mapFoldBy P tl
            (if P a.2.license then insertPkgIntoMap a.1 a.2 m else m)
          from rfl]
    apply ih
    by_cases hp : P a.2.license = true
    · rw [if_pos hp]
      exact WF_insert _ _ _ h
    · rw [if_neg hp]
      exact h

theorem WF_empty : WF ([] : PackageDataMap) := by
  constructor
  · simp [topKeys]
  · intro kv hkv
    simp at hkv

/-! ### Claim theorems -/

/-- C2: a finding built from an SBOM entry with a declared license carries
exactly that declared string with every space replaced by a hyphen, and the
result is independent of the registry fallback, which is not consulted. -/
theorem declared_license_used_verbatim (reg reg2 : Registry) (e : SbomEntry)
    (s : String) (h : e.licenseConcluded = some s) :
    (mkPackageData reg e).license = normalizeLicense s ∧
    (mkPackageData reg e).license = (mkPackageData reg2 e).license ∧
    (normalizeLicense s).data =
      (s.data.map fun c => if c = ' ' then '-' else c) := by
  refine ⟨?_, ?_, rfl⟩
  · simp [mkPackageData, resolveDeclaredOrNPM, h]
  · simp [mkPackageData, resolveDeclaredOrNPM, h]

/-- Witness for C2 at a concrete entry: the declared license "Apache 2.0"
is kept (hyphen-normalized to "Apache-2.0") although the registry would
have answered "MIT". -/
theorem declared_license_used_verbatim_check :
    (mkPackageData (fun _ _ => Except.ok (some "MIT"))
        ⟨some "left-pad", some "1.0.0", some "Apache 2.0"⟩).license =
      normalizeLicense "Apache 2.0" ∧
    normalizeLicense "Apache 2.0" = "Apache-2.0" :=
  ⟨(declared_license_used_verbatim (fun _ _ => Except.ok (some "MIT"))
      (fun _ _ => Except.error ())
      ⟨some "left-pad", some "1.0.0", some "Apache 2.0"⟩ "Apache 2.0" rfl).1,
    by decide⟩

/-- C3: with no declared license, a failing registry lookup or registry
metadata without a license field yields exactly the license "Unknown", and
registry behaviour never changes how many findings the scan of a
repository produces. -/
theorem unresolvable_license_is_unknown (reg reg2 : Registry) (e : SbomEntry)
    (repo : String) (entries : List SbomEntry)
    (h1 : e.licenseConcluded = none)
    (h2 : reg (e.name.getD "") e.versionInfo = Except.error () ∨
          reg (e.name.getD "") e.versionInfo = Except.ok none) :
    (mkPackageData reg e).license = "Unknown" ∧
    (ingestRepo reg repo entries).packages.length =
      (ingestRepo reg2 repo entries).packages.length := by
  constructor
  · have hnorm : normalizeLicense "Unknown" = "Unknown" := by decide
    rcases h2 with h2 | h2 <;>
      simp [mkPackageData, resolveDeclaredOrNPM, resolveLicenseFromNPM, h1,
        h2, hnorm]
  · simp [ingestRepo]

/-- Witness for C3: a rejected registry lookup on an entry with no declared
license gives the finding license "Unknown", and the registry outcome does
not change the number of findings. -/
theorem unresolvable_license_is_unknown_check :
    (mkPackageData (fun _ _ => Except.error ())
        ⟨some "foo-lib", some "2.1.0", none⟩).license = "Unknown" ∧
    (ingestRepo (fun _ _ => Except.error ()) "B"
        [⟨some "foo-lib", some "2.1.0", none⟩]).packages.length =
      (ingestRepo (fun _ _ => Except.ok (some "MIT")) "B"
        [⟨some "foo-lib", some "2.1.0", none⟩]).packages.length :=
  unresolvable_license_is_unknown (fun _ _ => Except.error ())
    (fun _ _ => Except.ok (some "MIT")) ⟨some "foo-lib", some "2.1.0", none⟩
    "B" [⟨some "foo-lib", some "2.1.0", none⟩] rfl (Or.inl rfl)

/-- C4 counterexample: for an entry whose declared license is the empty
string the fallback registry is NOT consulted: with a registry that would
answer "MIT", resolution returns "" and not the registry's answer. -/
theorem empty_declared_license_skips_fallback :
    resolveDeclaredOrNPM (fun _ _ => Except.ok (some "MIT")) (some "")
        "left-pad" (some "1.0.0") = "" ∧
    resolveLicenseFromNPM (fun _ _ => Except.ok (some "MIT"))
        "left-pad" (some "1.0.0") = "MIT" ∧
    resolveDeclaredOrNPM (fun _ _ => Except.ok (some "MIT")) (some "")
        "left-pad" (some "1.0.0") ≠
      resolveLicenseFromNPM (fun _ _ => Except.ok (some "MIT"))
        "left-pad" (some "1.0.0") := by
  refine ⟨rfl, rfl, ?_⟩
  decide

/-- C4 (amended): the resolution step returns the declared license verbatim
whenever it is present — including when it is the empty string — and
queries the registry fallback exactly when the declared license is absent. -/
theorem declared_or_fallback_resolution (reg : Registry) (s pkgName : String)
    (version : Option String) :
    resolveDeclaredOrNPM reg (some s) pkgName version = s ∧
    resolveDeclaredOrNPM reg none pkgName version =
      resolveLicenseFromNPM reg pkgName version ∧
    (∀ reg2 : Registry,
      resolveDeclaredOrNPM reg (some "") pkgName version =
        resolveDeclaredOrNPM reg2 (some "") pkgName version) :=
  ⟨rfl, rfl, fun _ => rfl⟩

/-- C5: ingestion drops exactly the SBOM entries with a falsy name or with
versionInfo "main"; each kept entry yields exactly one finding, whose
version is the entry's versionInfo when present and the sentinel
"Missing version data" when absent. -/
theorem sbom_filter_and_finding_shape (reg : Registry) (repo : String)
    (e : SbomEntry) (rest : List SbomEntry) :
    (keepEntry e = true ↔
      e.name.getD "" ≠ "" ∧ e.versionInfo ≠ some "main") ∧
    (ingestRepo reg repo (e :: rest)).packages =
      (if keepEntry e then [mkPackageData reg e] else []) ++
        (ingestRepo reg repo rest).packages ∧
    (mkPackageData reg e).version =
      (match e.versionInfo with
       | some v => v
       | none => "Missing version data") := by
  refine ⟨?_, ?_, ?_⟩
  · simp [keepEntry]
  · by_cases h : keepEntry e = true <;>
      simp [ingestRepo, List.filter_cons, h]
  · cases hv : e.versionInfo <;> simp [mkPackageData, hv]

/-- C1: the (repo, version) occurrences stored by the aggregator under a
(name, license) cell of the no-license map are exactly the findings with
that name and license when the license is "Unknown" (and none otherwise);
dually for the blacklist map with blacklist membership; hence when
"Unknown" is not blacklisted, an "Unknown" finding lands in the unknown map
and its license row of the blacklist map stays empty. -/
theorem aggregation_map_membership (bl : List String) (rs : List RepoResult)
    (rr : RepoResult) (pkg : PackageData)
    (hu : "Unknown" ∉ bl) (hr : rr ∈ rs) (hp : pkg ∈ rr.packages)
    (hl : pkg.license = "Unknown") :
    (∀ n l, getLicList (aggregate bl rs).2 n l =
        if l = "Unknown" then findingsOcc rs n l else []) ∧
    (∀ n l, getLicList (aggregate bl rs).1 n l =
        if bl.contains l then findingsOcc rs n l else []) ∧
    (⟨rr.repo, pkg.version⟩ : MappedPackageData) ∈
      getLicList (aggregate bl rs).2 pkg.name "Unknown" ∧
    getLicList (aggregate bl rs).1 pkg.name "Unknown" = [] := by
  have hcont : bl.contains "Unknown" = false := by
    simpa using hu
  refine ⟨getLicList_aggregate_snd bl rs, getLicList_aggregate_fst bl rs,
    ?_, ?_⟩
  · rw [getLicList_aggregate_snd, if_pos rfl]
    exact List.mem_flatMap.mpr
      ⟨rr, hr, List.mem_filterMap.mpr ⟨pkg, hp, by simp [hl]⟩⟩
  · rw [getLicList_aggregate_fst, hcont]
    simp

/-- Witness for C1: one repository with one "Unknown" finding, blacklist
["GPL-3.0"]: the pair lands in the unknown map and the blacklist map's
"Unknown" cell is empty. -/
theorem aggregation_map_membership_check :
    (⟨"B", "2.1.0"⟩ : MappedPackageData) ∈
      getLicList
        (aggregate ["GPL-3.0"]
          [⟨"B", [⟨"foo-lib", "2.1.0", "Unknown"⟩]⟩]).2 "foo-lib" "Unknown" ∧
    getLicList
      (aggregate ["GPL-3.0"]
        [⟨"B", [⟨"foo-lib", "2.1.0", "Unknown"⟩]⟩]).1 "foo-lib" "Unknown" =
      [] := by
  have h := aggregation_map_membership ["GPL-3.0"]
    [⟨"B", [⟨"foo-lib", "2.1.0", "Unknown"⟩]⟩]
    ⟨"B", [⟨"foo-lib", "2.1.0", "Unknown"⟩]⟩ ⟨"foo-lib", "2.1.0", "Unknown"⟩
    (by decide) (List.mem_singleton.mpr rfl) (List.mem_singleton.mpr rfl) rfl
  exact ⟨h.2.2.1, h.2.2.2⟩

/-- C6: both aggregation maps are well formed after every insertion the
aggregator performs (each package name is a top-level key at most once and
each license appears at most once under it), and inserting a pair under an
existing (name, license) cell appends it as a new entry, never
deduplicating. -/
theorem aggregation_map_uniqueness (bl : List String)
    (acts : List (String × PackageData)) (rs : List RepoResult)
    (repo : String) (pkg : PackageData) (m : PackageDataMap) :
    WF (aggActions bl acts ([], [])).1 ∧
    WF (aggActions bl acts ([], [])).2 ∧
    WF (aggregate bl rs).1 ∧
    WF (aggregate bl rs).2 ∧
    getLicList (insertPkgIntoMap repo pkg m) pkg.name pkg.license =
      getLicList m pkg.name pkg.license ++ [⟨repo, pkg.version⟩] := by
  refine ⟨?_, ?_, ?_, ?_, ?_⟩
  · rw [aggActions_fst]
    exact WF_mapFoldBy _ _ _ WF_empty
  · rw [aggActions_snd]
    exact WF_mapFoldBy _ _ _ WF_empty
  · rw [aggregate_eq_aggActions, aggActions_fst]
    exact WF_mapFoldBy _ _ _ WF_empty
  · rw [aggregate_eq_aggActions, aggActions_snd]
    exact WF_mapFoldBy _ _ _ WF_empty
  · rw [getLicList_insert]
    simp

theorem findingsOcc_perm (rs1 rs2 : List RepoResult) (h : rs1.Perm rs2)
    (n l : String) : (findingsOcc rs1 n l).Perm (findingsOcc rs2 n l) :=
  List.Perm.flatMap_right _ h

theorem exists_mem_perm (l1 l2 : List α) (h : l1.Perm l2) (Q : α → Prop) :
    (∃ x ∈ l1, Q x) ↔ ∃ x ∈ l2, Q x := by
  constructor <;> rintro ⟨x, hx, hq⟩
  · exact ⟨x, h.mem_iff.mp hx, hq⟩
  · exact ⟨x, h.mem_iff.mpr hx, hq⟩

/-- C7: aggregating a permutation of the repository results yields maps
with the same top-level key sets, the same license key sets under every
package name, and permuted (hence multiset-equal) occurrence lists in
every (name, license) cell, for both maps. -/
theorem aggregation_perm_invariant (bl : List String)
    (rs1 rs2 : List RepoResult) (h : rs1.Perm rs2) :
    (∀ n, n ∈ topKeys (aggregate bl rs1).1 ↔
          n ∈ topKeys (aggregate bl rs2).1) ∧
    (∀ n, n ∈ topKeys (aggregate bl rs1).2 ↔
          n ∈ topKeys (aggregate bl rs2).2) ∧
    (∀ n l, l ∈ licKeys (aggregate bl rs1).1 n ↔
            l ∈ licKeys (aggregate bl rs2).1 n) ∧
    (∀ n l, l ∈ licKeys (aggregate bl rs1).2 n ↔
            l ∈ licKeys (aggregate bl rs2).2 n) ∧
    (∀ n l, (getLicList (aggregate bl rs1).1 n l).Perm
            (getLicList (aggregate bl rs2).1 n l)) ∧
    (∀ n l, (getLicList (aggregate bl rs1).2 n l).Perm
            (getLicList (aggregate bl rs2).2 n l)) := by
  refine ⟨?_, ?_, ?_, ?_, ?_, ?_⟩
  · intro n
    rw [mem_topKeys_aggregate_fst, mem_topKeys_aggregate_fst]
    exact exists_mem_perm rs1 rs2 h _
  · intro n
    rw [mem_topKeys_aggregate_snd, mem_topKeys_aggregate_snd]
    exact exists_mem_perm rs1 rs2 h _
  · intro n l
    rw [mem_licKeys_aggregate_fst, mem_licKeys_aggregate_fst]
    exact exists_mem_perm rs1 rs2 h _
  · intro n l
    rw [mem_licKeys_aggregate_snd, mem_licKeys_aggregate_snd]
    exact exists_mem_perm rs1 rs2 h _
  · intro n l
    rw [getLicList_aggregate_fst, getLicList_aggregate_fst]
    by_cases hc : bl.contains l = true
    · rw [hc]
      simpa using findingsOcc_perm rs1 rs2 h n l
    · simp only [Bool.not_eq_true] at hc
      rw [hc]
      simp
  · intro n l
    rw [getLicList_aggregate_snd, getLicList_aggregate_snd]
    by_cases hc : l = "Unknown"
    · rw [if_pos hc, if_pos hc]
      exact findingsOcc_perm rs1 rs2 h n l
    · rw [if_neg hc, if_neg hc]

/-- Witness for C7: two repositories sharing a blacklisted finding,
processed in both orders: the stored occurrence lists are permutations of
each other. -/
theorem aggregation_perm_invariant_check :
    (getLicList
        (aggregate ["GPL-3.0"]
          [⟨"C", [⟨"bar", "3.0.0", "GPL-3.0"⟩]⟩,
           ⟨"D", [⟨"bar", "3.0.0", "GPL-3.0"⟩]⟩]).1 "bar" "GPL-3.0").Perm
      (getLicList
        (aggregate ["GPL-3.0"]
          [⟨"D", [⟨"bar", "3.0.0", "GPL-3.0"⟩]⟩,
           ⟨"C", [⟨"bar", "3.0.0", "GPL-3.0"⟩]⟩]).1 "bar" "GPL-3.0") :=
  (aggregation_perm_invariant ["GPL-3.0"]
      [⟨"C", [⟨"bar", "3.0.0", "GPL-3.0"⟩]⟩,
       ⟨"D", [⟨"bar", "3.0.0", "GPL-3.0"⟩]⟩]
      [⟨"D", [⟨"bar", "3.0.0", "GPL-3.0"⟩]⟩,
       ⟨"C", [⟨"bar", "3.0.0", "GPL-3.0"⟩]⟩]
      (List.Perm.swap _ _ _)).2.2.2.2.1 "bar" "GPL-3.0"

/-- C8: the Markdown report is the banner, then the blacklisted section
exactly when the blacklist map is non-empty, then the missing section
exactly when the no-license map is non-empty, joined by blank lines; with
both maps empty the report is the banner alone. -/
theorem report_assembly (orgUrl : String) (m1 m2 : PackageDataMap) :
    mdProblems orgUrl m1 m2 =
      String.intercalate "\n\n"
        ([mdBanner] ++
          (if m1 = [] then []
           else [generateMDFromPkgs orgUrl (arraifyMap m1) (arraifyMap m2)
                   "blacklisted"]) ++
          (if m2 = [] then []
           else [generateMDFromPkgs orgUrl (arraifyMap m1) (arraifyMap m2)
                   "missing"])) ∧
    (m1 = [] → m2 = [] → mdProblems orgUrl m1 m2 = mdBanner) := by
  constructor
  · unfold mdProblems mdComponents
    by_cases h1 : m1 = [] <;> by_cases h2 : m2 = [] <;>
      simp [h1, h2, arraifyMap, List.length_pos]
  · intro h1 h2
    subst h1
    subst h2
    rfl

/-- Witness for C8: with both aggregation maps empty the report is exactly
the banner line. -/
theorem report_assembly_check :
    mdProblems "https://github.com/acme" [] [] = mdBanner :=
  (report_assembly "https://github.com/acme" [] []).2 rfl rfl

theorem mapWithIdx_getElem (f : Nat → α → β) (i j : Nat) (l : List α) :
    (mapWithIdx f i l)[j]? = l[j]?.map (f (i + j)) := by
  induction l generalizing i j with
  | nil => simp [mapWithIdx]
  | cons a tl ih =>
    cases j with
    | zero => simp [mapWithIdx]
    | succ j =>
      have e : i + 1 + j = i + (j + 1) := by omega
      simp only [show mapWithIdx f i (a :: tl) =
            f i a :: mapWithIdx f (i + 1) tl from rfl,
        List.getElem?_cons_succ]
      rw [ih, e]

/-- C9 (amended): in both renderings, the row produced for every license
after the first of a package shows no package name and only the first row
shows it; a subsequent Markdown row still carries the license string and
the versioned repository links, while a subsequent chat-markup row carries
only the repository links — its license string is omitted. -/
theorem report_row_merge (orgUrl name : String)
    (licenses : List LicenseGroup) (j : Nat) (lg : LicenseGroup)
    (h : licenses[j + 1]? = some lg) :
    (mdPkgLines orgUrl ⟨name, licenses⟩)[j + 1]? =
      some ("| | " ++ lg.license ++ " | " ++
        String.intercalate "," (lg.repos.map (mdRepoLink orgUrl)) ++
        " |") ∧
    (slackPkgLines orgUrl ⟨name, licenses⟩)[j + 1]? =
      some ("- " ++
        String.intercalate "," (lg.repos.map (slackRepoLink orgUrl))) ∧
    (∀ lg0, licenses[0]? = some lg0 →
      (mdPkgLines orgUrl ⟨name, licenses⟩)[0]? =
        some ("| ```" ++ name ++ "``` | " ++ lg0.license ++ " | " ++
          String.intercalate "," (lg0.repos.map (mdRepoLink orgUrl)) ++
          " |") ∧
      (slackPkgLines orgUrl ⟨name, licenses⟩)[0]? =
        some ("*" ++ name ++ " - " ++ lg0.license ++ "*\n - " ++
          String.intercalate "," (lg0.repos.map (slackRepoLink orgUrl)))) := by
  refine ⟨?_, ?_, ?_⟩
  · unfold mdPkgLines
    rw [mapWithIdx_getElem, List.getElem?_map, h]
    simp
  · unfold slackPkgLines
    rw [mapWithIdx_getElem, List.getElem?_map, h]
    simp
  · intro lg0 h0
    constructor
    · unfold mdPkgLines
      rw [mapWithIdx_getElem, List.getElem?_map, h0]
      simp
    · unfold slackPkgLines
      rw [mapWithIdx_getElem, List.getElem?_map, h0]
      simp

/-- Witness for C9: a package with two licenses; the second Markdown row
has an empty name cell and the first row carries the name. -/
theorem report_row_merge_check :
    ([⟨"GPL-3.0", [⟨"C", "3.0.0"⟩]⟩, ⟨"MIT", [⟨"D", "1.0.0"⟩]⟩] :
        List LicenseGroup)[1]? = some ⟨"MIT", [⟨"D", "1.0.0"⟩]⟩ ∧
    (mdPkgLines "u"
        ⟨"bar", [⟨"GPL-3.0", [⟨"C", "3.0.0"⟩]⟩,
                 ⟨"MIT", [⟨"D", "1.0.0"⟩]⟩]⟩)[1]? =
      some ("| | " ++ "MIT" ++ " | " ++
        String.intercalate ","
          ([(⟨"D", "1.0.0"⟩ : MappedPackageData)].map (mdRepoLink "u")) ++
        " |") :=
  ⟨rfl,
    (report_row_merge "u" "bar"
      [⟨"GPL-3.0", [⟨"C", "3.0.0"⟩]⟩, ⟨"MIT", [⟨"D", "1.0.0"⟩]⟩] 0
      ⟨"MIT", [⟨"D", "1.0.0"⟩]⟩ rfl).1⟩

/-- C9 counterexample: a subsequent chat-markup row does not carry the
license string: two packages differing only in their second license render
the identical second Slack row (while the Markdown rows differ), and that
row is just the bullet with the repository link. -/
theorem slack_row_lacks_license :
    (slackPkgLines "u"
        ⟨"bar", [⟨"GPL-3.0", [⟨"C", "3.0.0"⟩]⟩,
                 ⟨"MIT", [⟨"D", "1.0.0"⟩]⟩]⟩)[1]? =
      (slackPkgLines "u"
        ⟨"bar", [⟨"GPL-3.0", [⟨"C", "3.0.0"⟩]⟩,
                 ⟨"Apache-2.0", [⟨"D", "1.0.0"⟩]⟩]⟩)[1]? ∧
    (slackPkgLines "u"
        ⟨"bar", [⟨"GPL-3.0", [⟨"C", "3.0.0"⟩]⟩,
                 ⟨"MIT", [⟨"D", "1.0.0"⟩]⟩]⟩)[1]? =
      some "- `D` (<u/D|link>) @ 1.0.0" ∧
    (mdPkgLines "u"
        ⟨"bar", [⟨"GPL-3.0", [⟨"C", "3.0.0"⟩]⟩,
                 ⟨"MIT", [⟨"D", "1.0.0"⟩]⟩]⟩)[1]? ≠
      (mdPkgLines "u"
        ⟨"bar", [⟨"GPL-3.0", [⟨"C", "3.0.0"⟩]⟩,
                 ⟨"Apache-2.0", [⟨"D", "1.0.0"⟩]⟩]⟩)[1]? := by
  refine ⟨rfl, rfl, ?_⟩
  decide

theorem no_space_normalizeLicense (s : String) :
    ' ' ∉ (normalizeLicense s).data := by
  intro hmem
  rcases List.mem_map.mp hmem with ⟨c, _, hc⟩
  by_cases h : c = ' ' <;> simp [h] at hc

theorem ingested_license_no_space (reg : Registry)
    (repos : List (String × List SbomEntry)) :
    ∀ rr ∈ ingestAll reg repos, ∀ pkg ∈ rr.packages,
      ' ' ∉ pkg.license.data := by
  intro rr hrr pkg hpkg
  rcases List.mem_map.mp hrr with ⟨rp, _, rfl⟩
  rcases List.mem_map.mp hpkg with ⟨e, _, rfl⟩
  exact no_space_normalizeLicense _

theorem aggregateStep_congr_blacklist (bl1 bl2 : List String)
    (repo : String) (st : PackageDataMap × PackageDataMap)
    (pkg : PackageData)
    (h : bl1.contains pkg.license = bl2.contains pkg.license) :
    aggregateStep bl1 repo st pkg = aggregateStep bl2 repo st pkg := by
  unfold aggregateStep
  rw [h]

theorem aggActions_congr_blacklist (bl1 bl2 : List String)
    (acts : List (String × PackageData))
    (st : PackageDataMap × PackageDataMap)
    (h : ∀ a ∈ acts, bl1.contains a.2.license = bl2.contains a.2.license) :
    aggActions bl1 acts st = aggActions bl2 acts st := by
  induction acts generalizing st with
  | nil => rfl
  | cons a tl ih =>
    rw [show aggActions bl1 (a :: tl) st =
          aggActions bl1 tl (aggregateStep bl1 a.1 st a.2) from rfl,
        show aggActions bl2 (a :: tl) st =
          aggActions bl2 tl (aggregateStep bl2 a.1 st a.2) from rfl,
        aggregateStep_congr_blacklist bl1 bl2 a.1 st a.2
          (h a (List.mem_cons_self a tl)),
        ih _ fun x hx => h x (List.mem_cons_of_mem a hx)]

theorem aggregate_congr_blacklist (bl1 bl2 : List String)
    (rs : List RepoResult)
    (h : ∀ r ∈ rs, ∀ p ∈ r.packages,
      bl1.contains p.license = bl2.contains p.license) :
    aggregate bl1 rs = aggregate bl2 rs := by
  rw [aggregate_eq_aggActions, aggregate_eq_aggActions]
  apply aggActions_congr_blacklist
  intro a ha
  rcases List.mem_flatMap.mp ha with ⟨r, hr, hmem⟩
  rcases List.mem_map.mp hmem with ⟨p, hp, rfl⟩
  exact h r hr p hp

/-- C10: every license key stored in either aggregation map is
hyphen-normalized and so contains no space; a blacklist entry containing a
space is never equal to any finding's license, and filtering such entries
out of the blacklist leaves the aggregation result unchanged — spaced
entries never contribute a blacklist-map row. -/
theorem blacklist_space_entries_inert (cfg : String) (reg : Registry)
    (repos : List (String × List SbomEntry)) :
    (∀ rr ∈ ingestAll reg repos, ∀ pkg ∈ rr.packages,
      ' ' ∉ pkg.license.data) ∧
    (∀ b ∈ parseBlacklist cfg, ' ' ∈ b.data →
      ∀ rr ∈ ingestAll reg repos, ∀ pkg ∈ rr.packages,
        pkg.license ≠ b) ∧
    (∀ n l,
      l ∈ licKeys (aggregate (parseBlacklist cfg) (ingestAll reg repos)).1 n →
        ' ' ∉ l.data) ∧
    (∀ n l,
      l ∈ licKeys (aggregate (parseBlacklist cfg) (ingestAll reg repos)).2 n →
        ' ' ∉ l.data) ∧
    aggregate (parseBlacklist cfg) (ingestAll reg repos) =
      aggregate ((parseBlacklist cfg).filter fun b => decide (' ' ∉ b.data))
        (ingestAll reg repos) := by
  refine ⟨ingested_license_no_space reg repos, ?_, ?_, ?_, ?_⟩
  · intro b _ hb rr hrr pkg hpkg heq
    exact ingested_license_no_space reg repos rr hrr pkg hpkg (heq ▸ hb)
  · intro n l hl
    rcases (mem_licKeys_aggregate_fst _ _ n l).mp hl with
      ⟨r, hr, p, hp, _, hlic, _⟩
    exact hlic ▸ ingested_license_no_space reg repos r hr p hp
  · intro n l hl
    rcases (mem_licKeys_aggregate_snd _ _ n l).mp hl with
      ⟨r, hr, p, hp, _, hlic, _⟩
    exact hlic ▸ ingested_license_no_space reg repos r hr p hp
  · apply aggregate_congr_blacklist
    intro r hr p hp
    have hno : decide (' ' ∉ p.license.data) = true := by
      simpa using ingested_license_no_space reg repos r hr p hp
    simp [List.mem_filter, hno]

/-- Witness for C10: blacklist "GPL 3.0,MIT" against one finding whose
normalized license is "GPL-3.0": the spaced entry matches nothing, and
filtering it out leaves the aggregation unchanged. -/
theorem blacklist_space_entries_inert_check :
    ((mkPackageData (fun _ _ => Except.error ())
        ⟨some "bar", some "3.0.0", some "GPL 3.0"⟩).license ≠ "GPL 3.0") ∧
    aggregate (parseBlacklist "GPL 3.0,MIT")
        (ingestAll (fun _ _ => Except.error ())
          [("A", [⟨some "bar", some "3.0.0", some "GPL 3.0"⟩])]) =
      aggregate
        ((parseBlacklist "GPL 3.0,MIT").filter fun b =>
          decide (' ' ∉ b.data))
        (ingestAll (fun _ _ => Except.error ())
          [("A", [⟨some "bar", some "3.0.0", some "GPL 3.0"⟩])]) := by
  have h := blacklist_space_entries_inert "GPL 3.0,MIT"
    (fun _ _ => Except.error ())
    [("A", [⟨some "bar", some "3.0.0", some "GPL 3.0"⟩])]
  refine ⟨?_, h.2.2.2.2⟩
  exact h.2.1 "GPL 3.0" (by decide) (by decide)
    (ingestRepo (fun _ _ => Except.error ()) "A"
      [⟨some "bar", some "3.0.0", some "GPL 3.0"⟩])
    (List.mem_singleton.mpr rfl)
    (mkPackageData (fun _ _ => Except.error ())
      ⟨some "bar", some "3.0.0", some "GPL 3.0"⟩)
    (by decide)

end Scanner
